import Mathlib

/-!
Shallow embedding of `src/src/reactor.rs` from the `async-io-mini` repository:
the registration table of the readiness-multiplexing reactor, its bitset
adapter, and the table operations (`register`, `deregister`, `set`, `fetch`,
`set_fds`, `update_events`, the notification sub-operations and the
reactor-level `fetch_or_set`).

Modelling decisions:
* `RawFd` is `Int` (the code only ever compares and bounds descriptors).
* A `Waker` is modelled as a `Nat` identity: `clone` is the identity,
  `will_wake` is equality of identities, and waker invocations are made
  observable by returning the list of woken wakers from each operation.
* `EnumSet<Event>` is a pair of booleans; `heapless::Vec<_, N>` is a `List`
  together with the capacity check `N ≤ length` on push.
* `fd_set` bitmaps are lists of descriptors with membership as `FD_ISSET`.
* Every operation on `&mut Registrations` returns the updated table next to
  its result, so that the early-return error paths of the source — which
  happen before any mutation — visibly leave the table unchanged.
* The OS side of the eventfd notification channel (a saturating one-bit
  counter living in the kernel) is threaded explicitly as a `Bool` through
  `notify` / `consume_notification`.
-/

namespace AsyncIOMini

/-- Embeds `sys::FD_SETSIZE`, the number of descriptors representable in an
`fd_set` bitmap (1024 on the targeted platforms). -/
def FD_SETSIZE : Nat := 1024

/-- Embeds `const MAX_REGISTRATIONS: usize = sys::FD_SETSIZE` (reactor.rs line 19),
the capacity of the static `REACTOR`'s table. -/
def MAX_REGISTRATIONS : Nat := FD_SETSIZE

/-- Embeds `enum Event { Read = 0, Write = 1 }` (reactor.rs lines 21-25). -/
inductive Event : Type where
  | Read : Event
  | Write : Event
deriving DecidableEq, Repr

/-- Embeds `EnumSet::ALL` iterates the variants in discriminant order. -/
def allEvents : List Event := [Event.Read, Event.Write]

/-- A task waker, identified by an opaque identity; `will_wake` is identity
equality and `clone` is the identity function. -/
abbrev Waker := Nat

/-- Embeds `Waker::will_wake`: whether the two wakers would wake the same task. -/
def willWake (a b : Waker) : Bool := a == b

/-- Embeds `EnumSet<Event>`: a set of events, one bit per variant. -/
structure EventSet : Type where
  read : Bool
  write : Bool
deriving DecidableEq, Repr

/-- Embeds `EnumSet::empty()`. -/
def EventSet.empty : EventSet := ⟨false, false⟩

/-- Embeds `EnumSet::contains`. -/
def EventSet.contains (s : EventSet) : Event → Bool
  | Event.Read => s.read
  | Event.Write => s.write

/-- Embeds `EnumSet::remove` (clear one bit). -/
def EventSet.remove (s : EventSet) : Event → EventSet
  | Event.Read => { s with read := false }
  | Event.Write => { s with write := false }

/-- Embeds `events |= event` (set one bit). -/
def EventSet.insert (s : EventSet) : Event → EventSet
  | Event.Read => { s with read := true }
  | Event.Write => { s with write := true }

/-- Embeds `struct Registration { fd, events, wakers: [Option<Waker>; 2] }`
(reactor.rs lines 77-81); the two waker slots are spelled out per event. -/
structure Registration : Type where
  fd : Int
  events : EventSet
  wakerRead : Option Waker
  wakerWrite : Option Waker
deriving DecidableEq, Repr

/-- Embeds `registration.wakers[event as usize]` (read access). -/
def Registration.waker (r : Registration) : Event → Option Waker
  | Event.Read => r.wakerRead
  | Event.Write => r.wakerWrite

/-- Embeds `registration.wakers[event as usize] = w` (write access). -/
def Registration.setWaker (r : Registration) (e : Event) (w : Option Waker) :
    Registration :=
  match e with
  | Event.Read => { r with wakerRead := w }
  | Event.Write => { r with wakerWrite := w }

/-- Embeds `struct Registrations<const N: usize>` (reactor.rs lines 83-87): the
bounded vector of registrations, the lazily created notification channel's
descriptor, and the pending-request counter.  The capacity `N` is passed to
the operations that need it. -/
structure Registrations : Type where
  vec : List Registration
  event_fd : Option Int
  waiting : Nat
deriving DecidableEq, Repr

/-- Embeds `Registrations::new()`. -/
def Registrations.new : Registrations := ⟨[], none, 0⟩

/-- The error kinds the table operations produce. -/
inductive ErrorKind : Type where
  | InvalidInput : ErrorKind
  | NotFound : ErrorKind
  | OutOfMemory : ErrorKind
deriving DecidableEq, Repr

/-- Embeds `struct Fds` (reactor.rs lines 27-31): the three `fd_set` bitmaps,
each modelled as the list of descriptors currently set in it. -/
structure Fds : Type where
  read : List Int
  write : List Int
  except : List Int
deriving DecidableEq, Repr

/-- Embeds `Fds::zero` / `FD_ZERO` on all three bitmaps. -/
def Fds.zero : Fds := ⟨[], [], []⟩

/-- The bitmap selected by an event (`Fds::fd_set`). -/
def Fds.fdSet (fds : Fds) : Event → List Int
  | Event.Read => fds.read
  | Event.Write => fds.write

/-- Embeds `Fds::is_set` / `FD_ISSET`. -/
def Fds.isSet (fds : Fds) (fd : Int) (e : Event) : Bool :=
  (fds.fdSet e).contains fd

/-- Embeds `Fds::set` / `FD_SET`. -/
def Fds.set (fds : Fds) (fd : Int) (e : Event) : Fds :=
  match e with
  | Event.Read => { fds with read := fd :: fds.read }
  | Event.Write => { fds with write := fd :: fds.write }

/-- Embeds `Registrations::register` (reactor.rs lines 98-126): validity checks in
source order, then `heapless::Vec::push`, which fails with `OutOfMemory`
when the vector is at capacity `N`.  Every error path returns before any
mutation, so the table comes back unchanged there. -/
def Registrations.register (N : Nat) (s : Registrations) (fd : Int) :
    Registrations × Except ErrorKind Unit :=
  if fd < 0 ∨ s.event_fd = some fd then
    (s, Except.error ErrorKind.InvalidInput)
  else if (FD_SETSIZE : Int) ≤ fd then
    (s, Except.error ErrorKind.InvalidInput)
  else if s.vec.any (fun reg => reg.fd == fd) then
    (s, Except.error ErrorKind.InvalidInput)
  else if N ≤ s.vec.length then
    (s, Except.error ErrorKind.OutOfMemory)
  else
    ({ s with vec := s.vec ++ [⟨fd, EventSet.empty, none, none⟩] },
      Except.ok ())

/-- Embeds `iter().position(|reg| reg.fd == fd)`. -/
def posOf (vec : List Registration) (fd : Int) : Option Nat :=
  match vec with
  | [] => none
  | reg :: rest =>
    if reg.fd == fd then some 0 else (posOf rest fd).map (· + 1)

/-- Embeds `heapless::Vec::swap_remove`: replace the element at `i` with the last
element and pop the last element. -/
def swapRemove (l : List Registration) (i : Nat) : List Registration :=
  match l.getLast? with
  | none => l
  | some last => (l.set i last).dropLast

/-- Embeds `Registrations::deregister` (reactor.rs lines 128-136). -/
def Registrations.deregister (s : Registrations) (fd : Int) :
    Registrations × Except ErrorKind Unit :=
  match posOf s.vec fd with
  | none => (s, Except.error ErrorKind.NotFound)
  | some i => ({ s with vec := swapRemove s.vec i }, Except.ok ())

/-- The registration produced by `Registrations::set` for the matched entry:
the event's armed bit is cleared and a clone of the waker is stored. -/
def armReg (reg : Registration) (e : Event) (w : Waker) : Registration :=
  ({ reg with events := reg.events.remove e }).setWaker e (some w)

/-- The wakes fired by `Registrations::set` (reactor.rs lines 145-149): if a
previous waker occupied the slot and would not wake the same task as the new
waker, it is woken. -/
def setWakes (prev : Option Waker) (w : Waker) : List Waker :=
  match prev with
  | none => []
  | some pw => if willWake pw w then [] else [pw]

/-- Embeds `iter_mut().find(|reg| reg.fd == fd)` followed by the slot update of
`Registrations::set`, acting on the first matching entry. -/
def setInVec (vec : List Registration) (fd : Int) (e : Event) (w : Waker) :
    Option (List Registration × List Waker) :=
  match vec with
  | [] => none
  | reg :: rest =>
    if reg.fd == fd then
      some (armReg reg e w :: rest, setWakes (reg.waker e) w)
    else
      match setInVec rest fd e w with
      | none => none
      | some (rest', wakes) => some (reg :: rest', wakes)

/-- Embeds `Registrations::set` (reactor.rs lines 138-152).  Besides the updated
table it returns the list of wakers woken during the call. -/
def Registrations.set (s : Registrations) (fd : Int) (e : Event) (w : Waker) :
    Registrations × List Waker × Except ErrorKind Unit :=
  match setInVec s.vec fd e w with
  | none => (s, [], Except.error ErrorKind.NotFound)
  | some (vec', wakes) => ({ s with vec := vec' }, wakes, Except.ok ())

/-- Embeds `iter_mut().find(|reg| reg.fd == fd)` followed by the read-and-clear of
`Registrations::fetch`, acting on the first matching entry. -/
def fetchInVec (vec : List Registration) (fd : Int) (e : Event) :
    Option (List Registration × Bool) :=
  match vec with
  | [] => none
  | reg :: rest =>
    if reg.fd == fd then
      some ({ reg with events := reg.events.remove e } :: rest,
        reg.events.contains e)
    else
      match fetchInVec rest fd e with
      | none => none
      | some (rest', b) => some (reg :: rest', b)

/-- Embeds `Registrations::fetch` (reactor.rs lines 154-164): returns whether the
event's armed bit was set, unconditionally clearing it. -/
def Registrations.fetch (s : Registrations) (fd : Int) (e : Event) :
    Registrations × Except ErrorKind Bool :=
  match fetchInVec s.vec fd e with
  | none => (s, Except.error ErrorKind.NotFound)
  | some (vec', b) => ({ s with vec := vec' }, Except.ok b)

/-- Embeds `max.map_or(fd, |max| max.max(fd))` folded into the running maximum. -/
def foldMax (mx : Option Int) (fd : Int) : Option Int :=
  some (mx.elim fd (fun m => max m fd))

/-- One step of the registration loop in `Registrations::set_fds`: the inner
loop over `EnumSet::ALL`, marking occupied waker slots and updating the
running maximum once per event. -/
def setFdsStep (acc : Fds × Option Int) (reg : Registration) :
    Fds × Option Int :=
  allEvents.foldl
    (fun acc2 e =>
      ((if (reg.waker e).isSome then acc2.1.set reg.fd e else acc2.1),
        foldMax acc2.2 reg.fd))
    acc

/-- Embeds `Registrations::set_fds` (reactor.rs lines 167-194): zero the bitmaps,
mark the notification channel for read-interest if it exists, mark every
registration's descriptor for every event whose waker slot is occupied, and
return the maximum descriptor seen. -/
def Registrations.set_fds (s : Registrations) : Fds × Option Int :=
  let start : Fds × Option Int :=
    match s.event_fd with
    | some efd => (Fds.zero.set efd Event.Read, some efd)
    | none => (Fds.zero, none)
  s.vec.foldl setFdsStep start

/-- The per-registration body of `Registrations::update_events`: for each
event in order, if the descriptor is marked ready in the bitmaps, arm the
event and take-and-wake the slot's waker if present. -/
def regUpdate (fds : Fds) (reg : Registration) : Registration × List Waker :=
  allEvents.foldl
    (fun acc e =>
      let r := acc.1
      if fds.isSet r.fd e then
        let r' := { r with events := r.events.insert e }
        match r'.waker e with
        | some w => (r'.setWaker e none, acc.2 ++ [w])
        | none => (r', acc.2)
      else acc)
    (reg, [])

/-- Embeds `Registrations::consume_notification` (reactor.rs lines 289-309) acting
on the OS-side one-bit eventfd counter `pending`: if the channel exists the
read drains the counter (a would-block result counts as success, meaning
nothing was pending) and returns `true`; otherwise it is a no-op returning
`false`. -/
def Registrations.consume_notification (s : Registrations) (pending : Bool) :
    Bool × Bool :=
  if s.event_fd.isSome then (false, true) else (pending, false)

/-- Embeds `Registrations::notify` (reactor.rs lines 271-287) acting on the OS-side
one-bit eventfd counter: if a channel exists, the counter becomes set. -/
def Registrations.notify (s : Registrations) (pending : Bool) : Bool × Bool :=
  if s.event_fd.isSome then (true, true) else (pending, false)

/-- Embeds `Registrations::update_events` (reactor.rs lines 197-216): drain one
pending notification, then fold the readiness bitmaps into armed bits and
waker invocations.  Returns the updated table, the updated OS-side pending
bit, and the wakers woken, in order. -/
def Registrations.update_events (s : Registrations) (pending : Bool)
    (fds : Fds) : Registrations × Bool × List Waker :=
  let pending' := (s.consume_notification pending).1
  let pairs := s.vec.map (regUpdate fds)
  ({ s with vec := pairs.map Prod.fst }, pending', (pairs.map Prod.snd).flatten)

/-- Embeds `Registrations::create_notification` (reactor.rs lines 218-257): if no
channel exists, store the descriptor `newFd` freshly returned by the OS
`eventfd` call and report `true`; otherwise report `false`. -/
def Registrations.create_notification (s : Registrations) (newFd : Int) :
    Registrations × Bool :=
  if s.event_fd.isSome then (s, false)
  else ({ s with event_fd := some newFd }, true)

/-- Embeds `Registrations::destroy_notification` (reactor.rs lines 259-269). -/
def Registrations.destroy_notification (s : Registrations) :
    Registrations × Bool :=
  match s.event_fd with
  | some _ => ({ s with event_fd := none }, true)
  | none => (s, false)

/-- Embeds `Reactor::fetch_or_set` (reactor.rs lines 361-371): inside one `modify`
call, `fetch`; if the event was armed return `true`, else `set` the waker
and return `false`. -/
def fetch_or_set (s : Registrations) (fd : Int) (e : Event) (w : Waker) :
    Registrations × List Waker × Except ErrorKind Bool :=
  match s.fetch fd e with
  | (s1, Except.error err) => (s1, [], Except.error err)
  | (s1, Except.ok true) => (s1, [], Except.ok true)
  | (s1, Except.ok false) =>
    match s1.set fd e w with
    | (s2, wakes, Except.error err) => (s2, wakes, Except.error err)
    | (s2, wakes, Except.ok ()) => (s2, wakes, Except.ok false)

/-- Embeds `iter().find(|reg| reg.fd == fd)`: the registration the table operations
act on, when the descriptor is registered. -/
def Registrations.findReg (s : Registrations) (fd : Int) : Option Registration :=
  s.vec.find? (fun reg => reg.fd == fd)

theorem Registration.fd_setWaker (r : Registration) (e : Event) (w : Option Waker) :
    (r.setWaker e w).fd = r.fd := by
  cases e <;> rfl

theorem Registration.events_setWaker (r : Registration) (e : Event) (w : Option Waker) :
    (r.setWaker e w).events = r.events := by
  cases e <;> rfl

theorem Registration.waker_setWaker_self (r : Registration) (e : Event) (w : Option Waker) :
    (r.setWaker e w).waker e = w := by
  cases e <;> rfl

theorem Registration.waker_setWaker_other (r : Registration) (e e' : Event)
    (w : Option Waker) (h : e' ≠ e) : (r.setWaker e w).waker e' = r.waker e' := by
  cases e <;> cases e' <;> simp_all [Registration.setWaker, Registration.waker]

theorem EventSet.contains_remove_self (s : EventSet) (e : Event) :
    (s.remove e).contains e = false := by
  cases e <;> rfl

theorem EventSet.contains_remove_other (s : EventSet) (e e' : Event) (h : e' ≠ e) :
    (s.remove e).contains e' = s.contains e' := by
  cases e <;> cases e' <;> simp_all [EventSet.remove, EventSet.contains]

theorem EventSet.contains_insert_self (s : EventSet) (e : Event) :
    (s.insert e).contains e = true := by
  cases e <;> rfl

theorem EventSet.contains_insert_other (s : EventSet) (e e' : Event) (h : e' ≠ e) :
    (s.insert e).contains e' = s.contains e' := by
  cases e <;> cases e' <;> simp_all [EventSet.insert, EventSet.contains]

theorem EventSet.remove_of_contains_eq_false (s : EventSet) (e : Event)
    (h : s.contains e = false) : s.remove e = s := by
  cases e <;> cases s <;> simp_all [EventSet.remove, EventSet.contains]

theorem setInVec_eq_none (vec : List Registration) (fd : Int) (e : Event) (w : Waker)
    (h : ∀ r ∈ vec, r.fd ≠ fd) : setInVec vec fd e w = none := by
  induction vec with
  | nil => rfl
  | cons reg rest ih =>
    have h1 : reg.fd ≠ fd := h reg (List.mem_cons_self _ _)
    simp only [setInVec, beq_iff_eq]
    rw [if_neg h1, ih (fun r hr => h r (List.mem_cons_of_mem _ hr))]

theorem setInVec_decomp (pre post : List Registration) (reg : Registration)
    (fd : Int) (e : Event) (w : Waker)
    (hpre : ∀ r ∈ pre, r.fd ≠ fd) (hreg : reg.fd = fd) :
    setInVec (pre ++ reg :: post) fd e w =
      some (pre ++ armReg reg e w :: post, setWakes (reg.waker e) w) := by
  induction pre with
  | nil =>
    simp only [List.nil_append, setInVec, beq_iff_eq]
    rw [if_pos hreg]
  | cons x rest ih =>
    have h1 : x.fd ≠ fd := hpre x (List.mem_cons_self _ _)
    simp only [List.cons_append, setInVec, beq_iff_eq, List.append_eq]
    rw [if_neg h1, ih (fun r hr => hpre r (List.mem_cons_of_mem _ hr))]

theorem setInVec_map_fd (vec : List Registration) (fd : Int) (e : Event) (w : Waker)
    (vec' : List Registration) (wakes : List Waker)
    (h : setInVec vec fd e w = some (vec', wakes)) :
    vec'.map Registration.fd = vec.map Registration.fd := by
  induction vec generalizing vec' wakes with
  | nil => simp [setInVec] at h
  | cons reg rest ih =>
    simp only [setInVec, beq_iff_eq] at h
    by_cases hfd : reg.fd = fd
    · rw [if_pos hfd] at h
      cases h
      simp [armReg, Registration.fd_setWaker]
    · rw [if_neg hfd] at h
      cases hrec : setInVec rest fd e w with
      | none => rw [hrec] at h; cases h
      | some p =>
        rw [hrec] at h
        obtain ⟨rest', ws⟩ := p
        simp only [Option.some.injEq, Prod.mk.injEq] at h
        obtain ⟨hv, hw⟩ := h
        subst hv
        simp [ih rest' ws hrec]


theorem fetchInVec_eq_none (vec : List Registration) (fd : Int) (e : Event)
    (h : ∀ r ∈ vec, r.fd ≠ fd) : fetchInVec vec fd e = none := by
  induction vec with
  | nil => rfl
  | cons reg rest ih =>
    have h1 : reg.fd ≠ fd := h reg (List.mem_cons_self _ _)
    simp only [fetchInVec, beq_iff_eq]
    rw [if_neg h1, ih (fun r hr => h r (List.mem_cons_of_mem _ hr))]

theorem fetchInVec_decomp (pre post : List Registration) (reg : Registration)
    (fd : Int) (e : Event)
    (hpre : ∀ r ∈ pre, r.fd ≠ fd) (hreg : reg.fd = fd) :
    fetchInVec (pre ++ reg :: post) fd e =
      some (pre ++ { reg with events := reg.events.remove e } :: post,
        reg.events.contains e) := by
  induction pre with
  | nil =>
    simp only [List.nil_append, fetchInVec, beq_iff_eq]
    rw [if_pos hreg]
  | cons x rest ih =>
    have h1 : x.fd ≠ fd := hpre x (List.mem_cons_self _ _)
    simp only [List.cons_append, fetchInVec, beq_iff_eq, List.append_eq]
    rw [if_neg h1, ih (fun r hr => hpre r (List.mem_cons_of_mem _ hr))]

theorem fetchInVec_map_fd (vec : List Registration) (fd : Int) (e : Event)
    (vec' : List Registration) (b : Bool)
    (h : fetchInVec vec fd e = some (vec', b)) :
    vec'.map Registration.fd = vec.map Registration.fd := by
  induction vec generalizing vec' b with
  | nil => simp [fetchInVec] at h
  | cons reg rest ih =>
    simp only [fetchInVec, beq_iff_eq] at h
    by_cases hfd : reg.fd = fd
    · rw [if_pos hfd] at h
      simp only [Option.some.injEq, Prod.mk.injEq] at h
      obtain ⟨hv, hb⟩ := h
      subst hv
      simp
    · rw [if_neg hfd] at h
      cases hrec : fetchInVec rest fd e with
      | none => rw [hrec] at h; cases h
      | some p =>
        rw [hrec] at h
        obtain ⟨rest', b'⟩ := p
        simp only [Option.some.injEq, Prod.mk.injEq] at h
        obtain ⟨hv, hb⟩ := h
        subst hv
        simp [ih rest' b' hrec]

theorem posOf_eq_none (vec : List Registration) (fd : Int)
    (h : ∀ r ∈ vec, r.fd ≠ fd) : posOf vec fd = none := by
  induction vec with
  | nil => rfl
  | cons reg rest ih =>
    have h1 : reg.fd ≠ fd := h reg (List.mem_cons_self _ _)
    simp only [posOf, beq_iff_eq]
    rw [if_neg h1, ih (fun r hr => h r (List.mem_cons_of_mem _ hr))]
    rfl

theorem posOf_decomp (pre post : List Registration) (reg : Registration)
    (fd : Int) (hpre : ∀ r ∈ pre, r.fd ≠ fd) (hreg : reg.fd = fd) :
    posOf (pre ++ reg :: post) fd = some pre.length := by
  induction pre with
  | nil =>
    simp only [List.nil_append, posOf, beq_iff_eq]
    rw [if_pos hreg]
    rfl
  | cons x rest ih =>
    have h1 : x.fd ≠ fd := hpre x (List.mem_cons_self _ _)
    simp only [List.cons_append, posOf, beq_iff_eq, List.append_eq]
    rw [if_neg h1, ih (fun r hr => hpre r (List.mem_cons_of_mem _ hr))]
    rfl

theorem swapRemove_zero_cons (reg : Registration) (post : List Registration) :
    (swapRemove (reg :: post) 0).Perm post := by
  cases post with
  | nil => simp [swapRemove]
  | cons p ps =>
    have hg : (reg :: p :: ps).getLast? = some ((p :: ps).getLast (by simp)) := by
      rw [List.getLast?_cons_cons]
      exact List.getLast?_eq_getLast _ _
    simp only [swapRemove, hg]
    show ((p :: ps).getLast (by simp) :: p :: ps).dropLast.Perm (p :: ps)
    rw [List.dropLast_cons₂]
    have hsplit := List.dropLast_append_getLast (l := p :: ps) (by simp)
    exact (List.perm_append_singleton _ _).symm.trans (by rw [hsplit])

theorem swapRemove_succ_cons (x : Registration) (l : List Registration) (i : Nat)
    (h : l ≠ []) : swapRemove (x :: l) (i + 1) = x :: swapRemove l i := by
  obtain ⟨y, ys, rfl⟩ := List.exists_cons_of_ne_nil h
  cases hg : (y :: ys).getLast? with
  | none => simp at hg
  | some g =>
    have hg2 : (x :: y :: ys).getLast? = some g := by
      rw [List.getLast?_cons_cons]; exact hg
    simp only [swapRemove, hg, hg2]
    cases i with
    | zero =>
      show (x :: g :: ys).dropLast = x :: (g :: ys).dropLast
      rw [List.dropLast_cons₂]
    | succ n =>
      show (x :: y :: ys.set n g).dropLast = x :: (y :: ys.set n g).dropLast
      rw [List.dropLast_cons₂]

theorem swapRemove_decomp (pre post : List Registration) (reg : Registration) :
    (swapRemove (pre ++ reg :: post) pre.length).Perm (pre ++ post) := by
  induction pre with
  | nil => exact swapRemove_zero_cons reg post
  | cons x rest ih =>
    have hne : rest ++ reg :: post ≠ [] := by simp
    rw [List.cons_append, List.length_cons, swapRemove_succ_cons x _ rest.length hne]
    exact List.Perm.cons x ih

/-- The wakers a single registration contributes during `update_events`: the
waker of every slot whose descriptor is marked ready, in event order. -/
def readyWakes (fds : Fds) (reg : Registration) : List Waker :=
  allEvents.filterMap (fun e => if fds.isSet reg.fd e then reg.waker e else none)

theorem regUpdate_fd (fds : Fds) (reg : Registration) :
    (regUpdate fds reg).1.fd = reg.fd := by
  obtain ⟨f, ⟨er, ew⟩, wr, ww⟩ := reg
  cases hR : fds.isSet f Event.Read <;> cases hW : fds.isSet f Event.Write <;>
    cases wr <;> cases ww <;>
    simp [regUpdate, allEvents, hR, hW, Registration.waker,
      Registration.setWaker, EventSet.insert]

theorem regUpdate_ready (fds : Fds) (reg : Registration) (e : Event)
    (h : fds.isSet reg.fd e = true) :
    (regUpdate fds reg).1.events.contains e = true ∧
      (regUpdate fds reg).1.waker e = none := by
  obtain ⟨f, ⟨er, ew⟩, wr, ww⟩ := reg
  cases e <;> cases hR : fds.isSet f Event.Read <;>
    cases hW : fds.isSet f Event.Write <;> cases wr <;> cases ww <;>
    simp_all [regUpdate, allEvents, Registration.waker, Registration.setWaker,
      EventSet.insert, EventSet.contains]

theorem regUpdate_not_ready (fds : Fds) (reg : Registration) (e : Event)
    (h : fds.isSet reg.fd e = false) :
    (regUpdate fds reg).1.events.contains e = reg.events.contains e ∧
      (regUpdate fds reg).1.waker e = reg.waker e := by
  obtain ⟨f, ⟨er, ew⟩, wr, ww⟩ := reg
  cases e <;> cases hR : fds.isSet f Event.Read <;>
    cases hW : fds.isSet f Event.Write <;> cases wr <;> cases ww <;>
    simp_all [regUpdate, allEvents, Registration.waker, Registration.setWaker,
      EventSet.insert, EventSet.contains]

theorem regUpdate_wakes (fds : Fds) (reg : Registration) :
    (regUpdate fds reg).2 = readyWakes fds reg := by
  obtain ⟨f, ⟨er, ew⟩, wr, ww⟩ := reg
  cases hR : fds.isSet f Event.Read <;> cases hW : fds.isSet f Event.Write <;>
    cases wr <;> cases ww <;>
    simp [regUpdate, readyWakes, allEvents, hR, hW, Registration.waker,
      Registration.setWaker, EventSet.insert]

theorem regUpdate_again (fds : Fds) (reg : Registration) :
    (regUpdate fds (regUpdate fds reg).1).2 = [] := by
  rw [regUpdate_wakes]
  have hfd := regUpdate_fd fds reg
  unfold readyWakes
  rw [hfd]
  have hall : ∀ e ∈ allEvents,
      (if fds.isSet reg.fd e then (regUpdate fds reg).1.waker e else none) = none := by
    intro e _
    cases h : fds.isSet reg.fd e with
    | false => simp
    | true => simp [(regUpdate_ready fds reg e h).2]
  simp only [List.filterMap_eq_nil_iff]
  exact hall

theorem int_beq_symm_or (a b : Int) (x : Bool) : (a == b || x) = (x || b == a) := by
  by_cases h : a = b
  · subst h
    simp
  · have h2 : b ≠ a := fun hh => h hh.symm
    have hb : (a == b) = false := beq_eq_false_iff_ne.mpr h
    have hb2 : (b == a) = false := beq_eq_false_iff_ne.mpr h2
    simp [hb, hb2]

theorem Fds.isSet_set_self (fds : Fds) (fd d : Int) (e : Event) :
    (fds.set fd e).isSet d e = (d == fd || fds.isSet d e) := by
  by_cases h : d = fd
  · subst h
    cases e <;> simp [Fds.set, Fds.isSet, Fds.fdSet, List.contains_cons]
  · cases e <;> simp [Fds.set, Fds.isSet, Fds.fdSet, List.contains_cons, h]

theorem Fds.isSet_set_other (fds : Fds) (fd d : Int) (e e' : Event) (h : e' ≠ e) :
    (fds.set fd e).isSet d e' = fds.isSet d e' := by
  cases e <;> cases e' <;> simp_all [Fds.set, Fds.isSet, Fds.fdSet]

theorem Fds.except_set (fds : Fds) (fd : Int) (e : Event) :
    (fds.set fd e).except = fds.except := by
  cases e <;> rfl

theorem setFdsStep_isSet (acc : Fds × Option Int) (reg : Registration)
    (d : Int) (e : Event) :
    (setFdsStep acc reg).1.isSet d e =
      (acc.1.isSet d e || (reg.fd == d && (reg.waker e).isSome)) := by
  obtain ⟨fds, mx⟩ := acc
  obtain ⟨f, ev, wr, ww⟩ := reg
  cases e <;> cases wr <;> cases ww <;>
    simp [setFdsStep, allEvents, Registration.waker, Fds.isSet_set_self,
      Fds.isSet_set_other] <;>
    first
    | rfl
    | apply int_beq_symm_or

theorem setFdsStep_except (acc : Fds × Option Int) (reg : Registration) :
    (setFdsStep acc reg).1.except = acc.1.except := by
  obtain ⟨fds, mx⟩ := acc
  obtain ⟨f, ev, wr, ww⟩ := reg
  cases wr <;> cases ww <;>
    simp [setFdsStep, allEvents, Registration.waker, Fds.except_set]

theorem foldMax_idem (mx : Option Int) (fd : Int) :
    foldMax (foldMax mx fd) fd = foldMax mx fd := by
  cases mx <;> simp [foldMax, max_assoc]

theorem setFdsStep_max (acc : Fds × Option Int) (reg : Registration) :
    (setFdsStep acc reg).2 = foldMax acc.2 reg.fd := by
  obtain ⟨fds, mx⟩ := acc
  obtain ⟨f, ev, wr, ww⟩ := reg
  cases wr <;> cases ww <;>
    simp [setFdsStep, allEvents, Registration.waker, foldMax_idem]

theorem foldl_setFdsStep_isSet (vec : List Registration) (acc : Fds × Option Int)
    (d : Int) (e : Event) :
    (vec.foldl setFdsStep acc).1.isSet d e =
      (acc.1.isSet d e || vec.any (fun reg => reg.fd == d && (reg.waker e).isSome)) := by
  induction vec generalizing acc with
  | nil => simp
  | cons reg rest ih =>
    simp only [List.foldl_cons, List.any_cons]
    rw [ih, setFdsStep_isSet]
    cases acc.1.isSet d e <;> simp [Bool.or_assoc]

theorem foldl_setFdsStep_except (vec : List Registration) (acc : Fds × Option Int) :
    (vec.foldl setFdsStep acc).1.except = acc.1.except := by
  induction vec generalizing acc with
  | nil => rfl
  | cons reg rest ih =>
    simp only [List.foldl_cons]
    rw [ih, setFdsStep_except]

theorem foldl_setFdsStep_max (vec : List Registration) (acc : Fds × Option Int) :
    (vec.foldl setFdsStep acc).2 =
      vec.foldl (fun mx reg => foldMax mx reg.fd) acc.2 := by
  induction vec generalizing acc with
  | nil => rfl
  | cons reg rest ih =>
    simp only [List.foldl_cons]
    rw [ih, setFdsStep_max]

theorem foldl_foldMax_isSome (vec : List Registration) (m : Int) :
    (vec.foldl (fun mx2 reg => foldMax mx2 reg.fd) (some m)).isSome = true := by
  induction vec generalizing m with
  | nil => rfl
  | cons reg rest ih =>
    simp only [List.foldl_cons, foldMax, Option.elim_some]
    exact ih (max m reg.fd)

theorem foldl_foldMax_eq_none (vec : List Registration) (mx : Option Int) :
    vec.foldl (fun mx2 reg => foldMax mx2 reg.fd) mx = none ↔
      mx = none ∧ vec = [] := by
  constructor
  · intro h
    cases vec with
    | nil => exact ⟨h, rfl⟩
    | cons reg rest =>
      exfalso
      have h2 := foldl_foldMax_isSome rest (mx.elim reg.fd fun m => max m reg.fd)
      have h3 : (reg :: rest).foldl (fun mx2 reg => foldMax mx2 reg.fd) mx =
          rest.foldl (fun mx2 reg => foldMax mx2 reg.fd)
            (some (mx.elim reg.fd fun m => max m reg.fd)) := rfl
      rw [h3] at h
      rw [h] at h2
      simp at h2
  · rintro ⟨h1, rfl⟩
    simp only [List.foldl_nil]
    exact h1

theorem foldl_foldMax_ub (vec : List Registration) (mx : Option Int) (m : Int)
    (h : vec.foldl (fun mx2 reg => foldMax mx2 reg.fd) mx = some m) :
    (∀ reg ∈ vec, reg.fd ≤ m) ∧ (∀ m0, mx = some m0 → m0 ≤ m) := by
  induction vec generalizing mx with
  | nil =>
    simp only [List.foldl_nil] at h
    refine ⟨by simp, fun m0 hm0 => ?_⟩
    rw [hm0] at h
    cases h
    exact le_refl m
  | cons reg rest ih =>
    simp only [List.foldl_cons] at h
    obtain ⟨hrest, hacc⟩ := ih (foldMax mx reg.fd) h
    have hup : ∀ v, foldMax mx reg.fd = some v → reg.fd ≤ v := by
      intro v hv
      cases mx with
      | none =>
        simp [foldMax] at hv
        omega
      | some m1 =>
        simp [foldMax] at hv
        rw [← hv]
        exact le_max_right m1 reg.fd
    have hmono : ∀ m0 m1, mx = some m0 → foldMax mx reg.fd = some m1 → m0 ≤ m1 := by
      intro m0 m1 hm0 hm1
      rw [hm0] at hm1
      simp [foldMax] at hm1
      rw [← hm1]
      exact le_max_left m0 reg.fd
    have hsome : foldMax mx reg.fd = some (mx.elim reg.fd fun m2 => max m2 reg.fd) := rfl
    have hfd : reg.fd ≤ m := le_trans (hup _ hsome) (hacc _ hsome)
    refine ⟨fun r hr => ?_, fun m0 hm0 => ?_⟩
    · rcases List.mem_cons.mp hr with h1 | h1
      · rw [h1]; exact hfd
      · exact hrest r h1
    · exact le_trans (hmono m0 _ hm0 hsome) (hacc _ hsome)

theorem foldl_foldMax_mem (vec : List Registration) (mx : Option Int) (m : Int)
    (h : vec.foldl (fun mx2 reg => foldMax mx2 reg.fd) mx = some m) :
    m ∈ vec.map Registration.fd ∨ mx = some m := by
  induction vec generalizing mx with
  | nil => simp only [List.foldl_nil] at h; right; exact h
  | cons reg rest ih =>
    simp only [List.foldl_cons] at h
    rcases ih (foldMax mx reg.fd) h with h1 | h1
    · left; simp [h1]
    · cases hmx : mx with
      | none =>
        rw [hmx] at h1
        simp [foldMax] at h1
        left; simp [h1]
      | some m0 =>
        rw [hmx] at h1
        simp [foldMax] at h1
        rcases max_choice m0 reg.fd with hc | hc
        · right; rw [hc] at h1; rw [h1]
        · left; rw [hc] at h1; simp [h1]
theorem EventSet.remove_remove (s : EventSet) (e : Event) :
    (s.remove e).remove e = s.remove e := by
  cases e <;> rfl

/-- C1: arm-waker (`Registrations::set`) on a registered descriptor clears the
event's armed bit, stores a clone of the given waker replacing any existing
one, wakes the previous waker exactly once when it would not wake the same
task, wakes nothing when it would, and fails with NotFound leaving the table
unchanged when the descriptor is unregistered. -/
theorem claim_C1_arm_waker (s : Registrations) (fd : Int) (e : Event) (w : Waker) :
    ((∀ r ∈ s.vec, r.fd ≠ fd) →
      s.set fd e w = (s, [], Except.error ErrorKind.NotFound)) ∧
    (∀ pre reg post, s.vec = pre ++ reg :: post → (∀ r ∈ pre, r.fd ≠ fd) →
      reg.fd = fd →
      s.set fd e w =
        ({ s with vec := pre ++ armReg reg e w :: post },
          setWakes (reg.waker e) w, Except.ok ()) ∧
      (armReg reg e w).events.contains e = false ∧
      (armReg reg e w).waker e = some w ∧
      (armReg reg e w).fd = reg.fd ∧
      (∀ e', e' ≠ e → (armReg reg e w).events.contains e' = reg.events.contains e' ∧
        (armReg reg e w).waker e' = reg.waker e') ∧
      (∀ pw, reg.waker e = some pw →
        setWakes (reg.waker e) w = if willWake pw w then [] else [pw]) ∧
      (reg.waker e = none → setWakes (reg.waker e) w = [])) := by
  constructor
  · intro h
    unfold Registrations.set
    rw [setInVec_eq_none s.vec fd e w h]
  · intro pre reg post hvec hpre hreg
    refine ⟨?_, ?_, ?_, ?_, ?_, ?_, ?_⟩
    · unfold Registrations.set
      rw [hvec, setInVec_decomp pre post reg fd e w hpre hreg]
    · unfold armReg
      rw [Registration.events_setWaker]
      exact EventSet.contains_remove_self _ e
    · unfold armReg
      exact Registration.waker_setWaker_self _ e (some w)
    · unfold armReg
      rw [Registration.fd_setWaker]
    · intro e' he'
      unfold armReg
      constructor
      · rw [Registration.events_setWaker]
        exact EventSet.contains_remove_other _ e e' he'
      · exact Registration.waker_setWaker_other _ e e' (some w) he'
    · intro pw hpw
      rw [hpw]
      rfl
    · intro hn
      rw [hn]
      rfl

/-- C1 witness: a concrete overwrite; the previous waker 7 is not equivalent
to the new waker 9 and is woken exactly once, the bit is cleared and the new
waker stored. -/
theorem claim_C1_arm_waker_witness :
    Registrations.set ⟨[⟨3, ⟨true, false⟩, some 7, none⟩], none, 0⟩ 3 Event.Read 9 =
      (⟨[⟨3, ⟨false, false⟩, some 9, none⟩], none, 0⟩, [7], Except.ok ()) := by
  have h := ((claim_C1_arm_waker ⟨[⟨3, ⟨true, false⟩, some 7, none⟩], none, 0⟩ 3
      Event.Read 9).2 [] ⟨3, ⟨true, false⟩, some 7, none⟩ [] rfl (by simp) rfl).1
  rw [h]
  rfl

/-- C6: peek-and-clear (`Registrations::fetch`) on a registered descriptor
returns whether the event's armed bit was set before the call, the bit is
clear afterwards regardless of its prior value (a second consecutive fetch
returns false), and on an unregistered descriptor it fails with NotFound
leaving the table unchanged. -/
theorem claim_C6_fetch (s : Registrations) (fd : Int) (e : Event) :
    ((∀ r ∈ s.vec, r.fd ≠ fd) →
      s.fetch fd e = (s, Except.error ErrorKind.NotFound)) ∧
    (∀ pre reg post, s.vec = pre ++ reg :: post → (∀ r ∈ pre, r.fd ≠ fd) →
      reg.fd = fd →
      ∃ s', s.fetch fd e = (s', Except.ok (reg.events.contains e)) ∧
        s'.vec = pre ++ { reg with events := reg.events.remove e } :: post ∧
        s'.event_fd = s.event_fd ∧ s'.waiting = s.waiting ∧
        ({ reg with events := reg.events.remove e } : Registration).events.contains e
          = false ∧
        (s'.fetch fd e).2 = Except.ok false) := by
  constructor
  · intro h
    unfold Registrations.fetch
    rw [fetchInVec_eq_none s.vec fd e h]
  · intro pre reg post hvec hpre hreg
    refine ⟨{ s with vec := pre ++ { reg with events := reg.events.remove e } :: post },
      ?_, rfl, rfl, rfl, EventSet.contains_remove_self _ e, ?_⟩
    · unfold Registrations.fetch
      rw [hvec, fetchInVec_decomp pre post reg fd e hpre hreg]
    · unfold Registrations.fetch
      rw [fetchInVec_decomp pre post { reg with events := reg.events.remove e }
        fd e hpre hreg]
      show Except.ok (({ reg with events := reg.events.remove e } :
        Registration).events.contains e) = Except.ok false
      rw [EventSet.contains_remove_self]

/-- C6 witness: fetch of an unregistered descriptor is NotFound with the
table unchanged; fetch on an armed Read bit returns true and the second
consecutive fetch returns false. -/
theorem claim_C6_fetch_witness :
    (Registrations.fetch ⟨[⟨3, ⟨true, false⟩, none, none⟩], none, 0⟩ 5 Event.Read =
      (⟨[⟨3, ⟨true, false⟩, none, none⟩], none, 0⟩, Except.error ErrorKind.NotFound)) ∧
    ∃ s', Registrations.fetch ⟨[⟨3, ⟨true, false⟩, none, none⟩], none, 0⟩ 3 Event.Read =
      (s', Except.ok true) ∧ (s'.fetch 3 Event.Read).2 = Except.ok false := by
  refine ⟨(claim_C6_fetch _ 5 Event.Read).1 (by decide), ?_⟩
  obtain ⟨s', h1, -, -, -, -, h6⟩ :=
    (claim_C6_fetch ⟨[⟨3, ⟨true, false⟩, none, none⟩], none, 0⟩ 3 Event.Read).2
      [] ⟨3, ⟨true, false⟩, none, none⟩ [] rfl (by simp) rfl
  exact ⟨s', by rw [h1]; rfl, h6⟩

/-- C9: deregister of a registered descriptor succeeds and removes its
registration (the remaining entries are a permutation of the others, their
relative order unspecified); a subsequent fetch for either event returns
NotFound; deregister of an unregistered descriptor fails with NotFound. -/
theorem claim_C9_deregister (s : Registrations) (fd : Int) :
    ((∀ r ∈ s.vec, r.fd ≠ fd) →
      s.deregister fd = (s, Except.error ErrorKind.NotFound)) ∧
    (∀ pre reg post, s.vec = pre ++ reg :: post → (∀ r ∈ pre, r.fd ≠ fd) →
      reg.fd = fd → (∀ r ∈ post, r.fd ≠ fd) →
      ∃ s', s.deregister fd = (s', Except.ok ()) ∧
        s'.vec.Perm (pre ++ post) ∧
        s'.event_fd = s.event_fd ∧
        (∀ e, s'.fetch fd e = (s', Except.error ErrorKind.NotFound))) := by
  constructor
  · intro h
    unfold Registrations.deregister
    rw [posOf_eq_none s.vec fd h]
  · intro pre reg post hvec hpre hreg hpost
    have hmem : ∀ r ∈ swapRemove s.vec pre.length, r.fd ≠ fd := by
      intro r hr
      rw [hvec] at hr
      have hp := (swapRemove_decomp pre post reg).mem_iff.mp hr
      rcases List.mem_append.mp hp with h1 | h1
      · exact hpre r h1
      · exact hpost r h1
    refine ⟨{ s with vec := swapRemove s.vec pre.length }, ?_, ?_, rfl, ?_⟩
    · unfold Registrations.deregister
      rw [hvec, posOf_decomp pre post reg fd hpre hreg]
    · show (swapRemove s.vec pre.length).Perm (pre ++ post)
      rw [hvec]
      exact swapRemove_decomp pre post reg
    · intro e
      unfold Registrations.fetch
      rw [fetchInVec_eq_none _ fd e hmem]

/-- C9 witness: deregistering descriptor 3 from a two-entry table removes it
(the remaining table is a permutation of the entry for 5) and a subsequent
fetch of 3 is NotFound; deregistering 9 is NotFound. -/
theorem claim_C9_deregister_witness :
    (Registrations.deregister
        ⟨[⟨3, EventSet.empty, none, none⟩, ⟨5, EventSet.empty, none, none⟩], none, 0⟩ 9 =
      (⟨[⟨3, EventSet.empty, none, none⟩, ⟨5, EventSet.empty, none, none⟩], none, 0⟩,
        Except.error ErrorKind.NotFound)) ∧
    ∃ s', Registrations.deregister
        ⟨[⟨3, EventSet.empty, none, none⟩, ⟨5, EventSet.empty, none, none⟩], none, 0⟩ 3 =
      (s', Except.ok ()) ∧
      s'.vec.Perm [⟨5, EventSet.empty, none, none⟩] ∧
      s'.fetch 3 Event.Read = (s', Except.error ErrorKind.NotFound) := by
  constructor
  · exact (claim_C9_deregister _ 9).1 (by decide)
  · obtain ⟨s', h1, h2, -, h4⟩ :=
      (claim_C9_deregister
        ⟨[⟨3, EventSet.empty, none, none⟩, ⟨5, EventSet.empty, none, none⟩], none, 0⟩ 3).2
        [] ⟨3, EventSet.empty, none, none⟩ [⟨5, EventSet.empty, none, none⟩]
        rfl (by simp) rfl (by decide)
    exact ⟨s', h1, h2, h4 Event.Read⟩

/-- InvalidInput cases of C3 gathered: negative, out of the bitset range,
equal to the notification channel's descriptor, or already registered. -/
def badRegisterArg (s : Registrations) (fd : Int) : Prop :=
  fd < 0 ∨ (FD_SETSIZE : Int) ≤ fd ∨ s.event_fd = some fd ∨ ∃ r ∈ s.vec, r.fd = fd

theorem register_invalid (N : Nat) (s : Registrations) (fd : Int)
    (h : badRegisterArg s fd) :
    s.register N fd = (s, Except.error ErrorKind.InvalidInput) := by
  unfold Registrations.register
  by_cases h1 : fd < 0 ∨ s.event_fd = some fd
  · rw [if_pos h1]
  · rw [if_neg h1]
    by_cases h2 : (FD_SETSIZE : Int) ≤ fd
    · rw [if_pos h2]
    · rw [if_neg h2]
      have h3 : ∃ r ∈ s.vec, r.fd = fd := by
        rcases h with ha | hb | hc | hd
        · exact absurd (Or.inl ha) h1
        · exact absurd hb h2
        · exact absurd (Or.inr hc) h1
        · exact hd
      have h4 : s.vec.any (fun reg => reg.fd == fd) = true := by
        rw [List.any_eq_true]
        obtain ⟨r, hr, hfd⟩ := h3
        exact ⟨r, hr, beq_iff_eq.mpr hfd⟩
      rw [if_pos h4]

theorem register_checks_pass (N : Nat) (s : Registrations) (fd : Int)
    (h : ¬badRegisterArg s fd) :
    s.register N fd =
      (if N ≤ s.vec.length then (s, Except.error ErrorKind.OutOfMemory)
       else ({ s with vec := s.vec ++ [⟨fd, EventSet.empty, none, none⟩] },
         Except.ok ())) := by
  unfold badRegisterArg at h
  push_neg at h
  obtain ⟨hneg, hsize, hefd, hmem⟩ := h
  unfold Registrations.register
  rw [if_neg (by push_neg; exact ⟨hneg, hefd⟩), if_neg (not_le.mpr hsize), if_neg ?_]
  rw [List.any_eq_true]
  rintro ⟨r, hr, hfd⟩
  exact hmem r hr (beq_iff_eq.mp hfd)

/-- C3: register fails with InvalidArgument when the descriptor is negative,
out of the representable range, equal to the notification channel's
descriptor, or already registered; fails with OutOfMemory when none of those
hold and the table is at capacity N; otherwise appends a registration for the
descriptor with an empty armed-events set and both waker slots empty. -/
theorem claim_C3_register (N : Nat) (s : Registrations) (fd : Int) :
    (badRegisterArg s fd →
      s.register N fd = (s, Except.error ErrorKind.InvalidInput)) ∧
    (¬badRegisterArg s fd → N ≤ s.vec.length →
      s.register N fd = (s, Except.error ErrorKind.OutOfMemory)) ∧
    (¬badRegisterArg s fd → s.vec.length < N →
      s.register N fd =
        ({ s with vec := s.vec ++ [⟨fd, EventSet.empty, none, none⟩] },
          Except.ok ()) ∧
      (∀ e, (Registration.mk fd EventSet.empty none none).events.contains e = false ∧
        (Registration.mk fd EventSet.empty none none).waker e = none)) := by
  refine ⟨register_invalid N s fd, ?_, ?_⟩
  · intro h hlen
    rw [register_checks_pass N s fd h, if_pos hlen]
  · intro h hlen
    refine ⟨?_, ?_⟩
    · rw [register_checks_pass N s fd h, if_neg (by omega)]
    · intro e
      cases e <;> exact ⟨rfl, rfl⟩

/-- C3 witness: the four InvalidInput cases, an OutOfMemory at capacity, and
a successful append, all on concrete tables. -/
theorem claim_C3_register_witness :
    (Registrations.register 4 ⟨[], some 6, 0⟩ (-1) =
      (⟨[], some 6, 0⟩, Except.error ErrorKind.InvalidInput)) ∧
    (Registrations.register 4 ⟨[], some 6, 0⟩ 2000 =
      (⟨[], some 6, 0⟩, Except.error ErrorKind.InvalidInput)) ∧
    (Registrations.register 4 ⟨[], some 6, 0⟩ 6 =
      (⟨[], some 6, 0⟩, Except.error ErrorKind.InvalidInput)) ∧
    (Registrations.register 4 ⟨[⟨3, EventSet.empty, none, none⟩], some 6, 0⟩ 3 =
      (⟨[⟨3, EventSet.empty, none, none⟩], some 6, 0⟩,
        Except.error ErrorKind.InvalidInput)) ∧
    (Registrations.register 1 ⟨[⟨3, EventSet.empty, none, none⟩], some 6, 0⟩ 4 =
      (⟨[⟨3, EventSet.empty, none, none⟩], some 6, 0⟩,
        Except.error ErrorKind.OutOfMemory)) ∧
    (Registrations.register 4 ⟨[⟨3, EventSet.empty, none, none⟩], some 6, 0⟩ 4 =
      (⟨[⟨3, EventSet.empty, none, none⟩, ⟨4, EventSet.empty, none, none⟩], some 6, 0⟩,
        Except.ok ())) := by
  refine ⟨(claim_C3_register 4 _ (-1)).1 (by left; decide),
    (claim_C3_register 4 _ 2000).1 (by right; left; decide),
    (claim_C3_register 4 _ 6).1 (by right; right; left; rfl),
    (claim_C3_register 4 _ 3).1 (by right; right; right; decide),
    (claim_C3_register 1 _ 4).2.1 (by unfold badRegisterArg; decide) (by decide), ?_⟩
  have h := ((claim_C3_register 4
    ⟨[⟨3, EventSet.empty, none, none⟩], some 6, 0⟩ 4).2.2
    (by unfold badRegisterArg; decide) (by decide)).1
  rw [h]
  rfl

/-- C7: register is atomic on failure: a duplicate descriptor yields
InvalidArgument with the whole table (including the existing registration)
unchanged; every error outcome leaves the table unchanged; and at capacity
with otherwise valid arguments it yields OutOfMemory with the table still
holding exactly its N entries. -/
theorem claim_C7_register_atomic (N : Nat) (s : Registrations) (fd : Int) :
    ((∃ r ∈ s.vec, r.fd = fd) →
      s.register N fd = (s, Except.error ErrorKind.InvalidInput)) ∧
    (∀ err, (s.register N fd).2 = Except.error err → (s.register N fd).1 = s) ∧
    (s.vec.length = N → ¬badRegisterArg s fd →
      s.register N fd = (s, Except.error ErrorKind.OutOfMemory) ∧
      (s.register N fd).1.vec.length = N) := by
  refine ⟨?_, ?_, ?_⟩
  · intro h
    exact register_invalid N s fd (Or.inr (Or.inr (Or.inr h)))
  · intro err herr
    by_cases h : badRegisterArg s fd
    · rw [register_invalid N s fd h]
    · rw [register_checks_pass N s fd h]
      rw [register_checks_pass N s fd h] at herr
      by_cases hlen : N ≤ s.vec.length
      · rw [if_pos hlen]
      · rw [if_neg hlen] at herr
        simp at herr
  · intro hlen h
    have heq := register_checks_pass N s fd h
    rw [heq, if_pos (show N ≤ s.vec.length by omega)]
    exact ⟨rfl, hlen⟩

/-- C7 witness: a duplicate registration and a capacity overflow, both
leaving the concrete table unchanged. -/
theorem claim_C7_register_atomic_witness :
    (Registrations.register 2 ⟨[⟨3, ⟨true, false⟩, some 7, none⟩], none, 0⟩ 3 =
      (⟨[⟨3, ⟨true, false⟩, some 7, none⟩], none, 0⟩,
        Except.error ErrorKind.InvalidInput)) ∧
    (Registrations.register 1 ⟨[⟨3, ⟨true, false⟩, some 7, none⟩], none, 0⟩ 4 =
      (⟨[⟨3, ⟨true, false⟩, some 7, none⟩], none, 0⟩,
        Except.error ErrorKind.OutOfMemory)) ∧
    (Registrations.register 1 ⟨[⟨3, ⟨true, false⟩, some 7, none⟩], none, 0⟩ 4).1.vec.length = 1 := by
  refine ⟨(claim_C7_register_atomic 2 _ 3).1 (by decide), ?_, ?_⟩
  · exact ((claim_C7_register_atomic 1 _ 4).2.2 (by decide)
      (by unfold badRegisterArg; decide)).1
  · exact ((claim_C7_register_atomic 1 _ 4).2.2 (by decide)
      (by unfold badRegisterArg; decide)).2

theorem Registration.waker_events_update (reg : Registration) (x : EventSet)
    (e : Event) : ({ reg with events := x } : Registration).waker e = reg.waker e := by
  cases e <;> rfl

theorem reg_remove_eq_self (reg : Registration) (e : Event)
    (h : reg.events.contains e = false) :
    ({ reg with events := reg.events.remove e } : Registration) = reg := by
  rw [EventSet.remove_of_contains_eq_false reg.events e h]

/-- C2: fetch_or_set on a registered descriptor with the armed bit set (in a
reachable table, where an armed bit implies an empty slot) returns true and
leaves no waker stored in that slot; with the armed bit clear it stores the
given waker and returns false; on an unregistered descriptor it fails with
NotFound. -/
theorem claim_C2_fetch_or_set (s : Registrations) (fd : Int) (e : Event) (w : Waker) :
    ((∀ r ∈ s.vec, r.fd ≠ fd) →
      fetch_or_set s fd e w = (s, [], Except.error ErrorKind.NotFound)) ∧
    (∀ pre reg post, s.vec = pre ++ reg :: post → (∀ r ∈ pre, r.fd ≠ fd) →
      reg.fd = fd → (∀ r ∈ post, r.fd ≠ fd) →
      (reg.events.contains e = true → reg.waker e = none →
        ∃ s', fetch_or_set s fd e w = (s', [], Except.ok true) ∧
          s'.vec = pre ++ { reg with events := reg.events.remove e } :: post ∧
          (∀ r ∈ s'.vec, r.fd = fd → r.waker e = none)) ∧
      (reg.events.contains e = false →
        fetch_or_set s fd e w =
          ({ s with vec := pre ++ armReg reg e w :: post },
            setWakes (reg.waker e) w, Except.ok false) ∧
        (armReg reg e w).waker e = some w)) := by
  constructor
  · intro h
    have hf : s.fetch fd e = (s, Except.error ErrorKind.NotFound) := by
      unfold Registrations.fetch
      rw [fetchInVec_eq_none s.vec fd e h]
    unfold fetch_or_set
    rw [hf]
  · intro pre reg post hvec hpre hreg hpost
    constructor
    · intro harm hslot
      have hf : s.fetch fd e =
          ({ s with vec := pre ++ { reg with events := reg.events.remove e } :: post },
            Except.ok true) := by
        unfold Registrations.fetch
        rw [hvec, fetchInVec_decomp pre post reg fd e hpre hreg, harm]
      refine ⟨{ s with vec := pre ++ { reg with events := reg.events.remove e } :: post },
        ?_, rfl, ?_⟩
      · unfold fetch_or_set
        rw [hf]
      · intro r hr hrfd
        rcases List.mem_append.mp hr with h1 | h1
        · exact absurd hrfd (hpre r h1)
        · rcases List.mem_cons.mp h1 with h2 | h2
          · rw [h2, Registration.waker_events_update]
            exact hslot
          · exact absurd hrfd (hpost r h2)
    · intro harm
      have hs1 : ({ s with vec := pre ++ { reg with events := reg.events.remove e } :: post }
          : Registrations) = s := by
        rw [reg_remove_eq_self reg e harm, ← hvec]
      have hf : s.fetch fd e = (s, Except.ok false) := by
        unfold Registrations.fetch
        rw [hvec, fetchInVec_decomp pre post reg fd e hpre hreg, harm]
        exact congrArg (fun t => (t, Except.ok false)) hs1
      have hset : s.set fd e w =
          ({ s with vec := pre ++ armReg reg e w :: post },
            setWakes (reg.waker e) w, Except.ok ()) := by
        unfold Registrations.set
        rw [hvec, setInVec_decomp pre post reg fd e w hpre hreg]
      constructor
      · unfold fetch_or_set
        simp only [hf, hset]
      · exact Registration.waker_setWaker_self _ e (some w)

/-- C2 witness: with the Read bit armed (slot empty) fetch_or_set returns
true with no waker stored; with the bit clear it stores waker 9 and returns
false; on an unregistered descriptor it is NotFound. -/
theorem claim_C2_fetch_or_set_witness :
    (fetch_or_set ⟨[⟨3, ⟨true, false⟩, none, none⟩], none, 0⟩ 5 Event.Read 9 =
      (⟨[⟨3, ⟨true, false⟩, none, none⟩], none, 0⟩, [],
        Except.error ErrorKind.NotFound)) ∧
    (∃ s', fetch_or_set ⟨[⟨3, ⟨true, false⟩, none, none⟩], none, 0⟩ 3 Event.Read 9 =
      (s', [], Except.ok true) ∧ (∀ r ∈ s'.vec, r.fd = 3 → r.waker Event.Read = none)) ∧
    (fetch_or_set ⟨[⟨3, ⟨false, false⟩, none, none⟩], none, 0⟩ 3 Event.Read 9).2.2 =
      Except.ok false := by
  refine ⟨(claim_C2_fetch_or_set _ 5 Event.Read 9).1 (by decide), ?_, ?_⟩
  · obtain ⟨h1, -⟩ :=
      (claim_C2_fetch_or_set ⟨[⟨3, ⟨true, false⟩, none, none⟩], none, 0⟩ 3 Event.Read 9).2
        [] ⟨3, ⟨true, false⟩, none, none⟩ [] rfl (by simp) rfl (by simp)
    obtain ⟨s', hs1, -, hs3⟩ := h1 rfl rfl
    exact ⟨s', hs1, hs3⟩
  · obtain ⟨-, h2⟩ :=
      (claim_C2_fetch_or_set ⟨[⟨3, ⟨false, false⟩, none, none⟩], none, 0⟩ 3 Event.Read 9).2
        [] ⟨3, ⟨false, false⟩, none, none⟩ [] rfl (by simp) rfl (by simp)
    rw [(h2 rfl).1]

/-- C4: apply-results (`Registrations::update_events`) first drains one
pending notification (a no-op when no channel exists), then for every
registration and every event whose descriptor is marked ready sets the armed
bit and, when a waker is stored there, removes it from the slot and invokes
it exactly once; slots not marked ready are untouched; afterwards every
ready slot is empty, so re-running the same readiness wakes nothing. -/
theorem claim_C4_update_events (s : Registrations) (pending : Bool) (fds : Fds) :
    ((s.update_events pending fds).2.1 =
      if s.event_fd.isSome then false else pending) ∧
    (s.update_events pending fds).1.event_fd = s.event_fd ∧
    (s.update_events pending fds).1.vec.length = s.vec.length ∧
    (∀ (i : Nat) (reg : Registration), s.vec[i]? = some reg →
      ∃ reg' : Registration, (s.update_events pending fds).1.vec[i]? = some reg' ∧
        reg'.fd = reg.fd ∧
        (∀ e, fds.isSet reg.fd e = true →
          reg'.events.contains e = true ∧ reg'.waker e = none) ∧
        (∀ e, fds.isSet reg.fd e = false →
          reg'.events.contains e = reg.events.contains e ∧
          reg'.waker e = reg.waker e)) ∧
    (s.update_events pending fds).2.2 = (s.vec.map (readyWakes fds)).flatten ∧
    (∀ p2, ((s.update_events pending fds).1.update_events p2 fds).2.2 = []) := by
  refine ⟨?_, rfl, ?_, ?_, ?_, ?_⟩
  · unfold Registrations.update_events Registrations.consume_notification
    cases s.event_fd <;> simp
  · simp [Registrations.update_events]
  · intro i reg hget
    refine ⟨(regUpdate fds reg).1, ?_, regUpdate_fd fds reg, ?_, ?_⟩
    · show ((s.vec.map (regUpdate fds)).map Prod.fst)[i]? = _
      rw [List.getElem?_map, List.getElem?_map, hget]
      rfl
    · intro e he
      exact regUpdate_ready fds reg e he
    · intro e he
      exact regUpdate_not_ready fds reg e he
  · show ((s.vec.map (regUpdate fds)).map Prod.snd).flatten = _
    rw [List.map_map]
    congr 1
    exact List.map_congr_left (fun reg _ => regUpdate_wakes fds reg)
  · intro p2
    show (((s.vec.map (regUpdate fds)).map Prod.fst).map (regUpdate fds)
      |>.map Prod.snd).flatten = []
    rw [List.map_map, List.map_map, List.map_map]
    rw [List.flatten_eq_nil_iff]
    intro l hl
    rw [List.mem_map] at hl
    obtain ⟨reg, -, hreg⟩ := hl
    rw [← hreg]
    exact regUpdate_again fds reg

/-- C4 witness: a table with an armed-free waker on a ready descriptor: the
waker is woken once and removed, the bit armed, and a second identical
update wakes nothing. -/
theorem claim_C4_update_events_witness :
    ((Registrations.update_events ⟨[⟨3, ⟨false, false⟩, some 7, none⟩], none, 0⟩
        true ⟨[3], [], []⟩).2.2 = [7]) ∧
    (∃ reg' : Registration,
      (Registrations.update_events ⟨[⟨3, ⟨false, false⟩, some 7, none⟩], none, 0⟩
        true ⟨[3], [], []⟩).1.vec[0]? = some reg' ∧
      reg'.events.contains Event.Read = true ∧ reg'.waker Event.Read = none) ∧
    (∀ p2, ((Registrations.update_events ⟨[⟨3, ⟨false, false⟩, some 7, none⟩], none, 0⟩
        true ⟨[3], [], []⟩).1.update_events p2 ⟨[3], [], []⟩).2.2 = []) := by
  obtain ⟨-, -, -, hget, hwakes, hagain⟩ :=
    claim_C4_update_events ⟨[⟨3, ⟨false, false⟩, some 7, none⟩], none, 0⟩ true ⟨[3], [], []⟩
  refine ⟨by rw [hwakes]; rfl, ?_, hagain⟩
  obtain ⟨reg', h1, -, h3, -⟩ := hget 0 ⟨3, ⟨false, false⟩, some 7, none⟩ rfl
  exact ⟨reg', h1, (h3 Event.Read (by decide)).1, (h3 Event.Read (by decide)).2⟩

/-- C5: build-readiness-sets (`Registrations::set_fds`) marks a descriptor
for read-interest exactly when it is the notification channel's descriptor
or some registration for it holds a Read waker; marks write-interest exactly
when some registration holds a Write waker; never marks the exceptional
bitmap; and returns the maximum descriptor over the channel and all
registrations (armed or not), or none exactly when no channel exists and the
table is empty. -/
theorem claim_C5_set_fds (s : Registrations) :
    (∀ d : Int,
      (s.set_fds.1.isSet d Event.Read = true ↔
        (s.event_fd = some d ∨
          ∃ r ∈ s.vec, r.fd = d ∧ (r.waker Event.Read).isSome = true)) ∧
      (s.set_fds.1.isSet d Event.Write = true ↔
        (∃ r ∈ s.vec, r.fd = d ∧ (r.waker Event.Write).isSome = true))) ∧
    s.set_fds.1.except = [] ∧
    (s.set_fds.2 = none ↔ s.event_fd = none ∧ s.vec = []) ∧
    (∀ m : Int, s.set_fds.2 = some m →
      (∀ r ∈ s.vec, r.fd ≤ m) ∧
      (∀ efd, s.event_fd = some efd → efd ≤ m) ∧
      (m ∈ s.vec.map Registration.fd ∨ s.event_fd = some m)) := by
  unfold Registrations.set_fds
  cases hefd : s.event_fd with
  | none =>
    refine ⟨?_, ?_, ?_, ?_⟩
    · intro d
      constructor
      · rw [foldl_setFdsStep_isSet]
        show (Fds.zero.isSet d Event.Read || _) = true ↔ _
        simp [Fds.zero, Fds.isSet, Fds.fdSet, List.any_eq_true]
      · rw [foldl_setFdsStep_isSet]
        show (Fds.zero.isSet d Event.Write || _) = true ↔ _
        simp [Fds.zero, Fds.isSet, Fds.fdSet, List.any_eq_true]
    · rw [foldl_setFdsStep_except]
      rfl
    · rw [foldl_setFdsStep_max]
      show List.foldl _ none s.vec = none ↔ _
      rw [foldl_foldMax_eq_none]
    · intro m hm
      rw [foldl_setFdsStep_max] at hm
      obtain ⟨hub, -⟩ := foldl_foldMax_ub s.vec none m hm
      refine ⟨hub, by simp, ?_⟩
      rcases foldl_foldMax_mem s.vec none m hm with h1 | h1
      · exact Or.inl h1
      · cases h1
  | some efd =>
    refine ⟨?_, ?_, ?_, ?_⟩
    · intro d
      constructor
      · rw [foldl_setFdsStep_isSet]
        show ((Fds.zero.set efd Event.Read).isSet d Event.Read || _) = true ↔ _
        rw [Fds.isSet_set_self]
        by_cases hd : d = efd
        · subst hd
          simp [Fds.zero, Fds.isSet, Fds.fdSet, List.any_eq_true]
        · have : (d == efd) = false := beq_eq_false_iff_ne.mpr hd
          have h2 : ¬((some efd : Option Int) = some d) := by
            intro hc
            exact hd (Option.some.inj hc).symm
          simp [this, Fds.zero, Fds.isSet, Fds.fdSet, List.any_eq_true, h2]
      · rw [foldl_setFdsStep_isSet]
        rw [Fds.isSet_set_other _ _ _ _ _ (by intro h; cases h)]
        show (Fds.zero.isSet d Event.Write || _) = true ↔ _
        simp [Fds.zero, Fds.isSet, Fds.fdSet, List.any_eq_true]
    · rw [foldl_setFdsStep_except]
      rfl
    · rw [foldl_setFdsStep_max]
      show List.foldl _ (some efd) s.vec = none ↔ _
      rw [foldl_foldMax_eq_none]
    · intro m hm
      rw [foldl_setFdsStep_max] at hm
      obtain ⟨hub, hacc⟩ := foldl_foldMax_ub s.vec (some efd) m hm
      refine ⟨hub, ?_, ?_⟩
      · intro efd2 hefd2
        cases hefd2
        exact hacc efd rfl
      · rcases foldl_foldMax_mem s.vec (some efd) m hm with h1 | h1
        · exact Or.inl h1
        · right
          rw [h1]

/-- C5 witness: a table with channel descriptor 6 and registrations 3 (Read
waker stored) and 9 (no waker): read-interest holds exactly for 6 and 3,
write-interest for nothing, the exceptional set is empty, and the maximum is
9 even though 9 has no armed waker. -/
theorem claim_C5_set_fds_witness :
    (Registrations.set_fds
      ⟨[⟨3, EventSet.empty, some 7, none⟩, ⟨9, EventSet.empty, none, none⟩],
        some 6, 0⟩).1.isSet 6 Event.Read = true ∧
    (Registrations.set_fds
      ⟨[⟨3, EventSet.empty, some 7, none⟩, ⟨9, EventSet.empty, none, none⟩],
        some 6, 0⟩).1.isSet 3 Event.Read = true ∧
    ¬((Registrations.set_fds
      ⟨[⟨3, EventSet.empty, some 7, none⟩, ⟨9, EventSet.empty, none, none⟩],
        some 6, 0⟩).1.isSet 3 Event.Write = true) ∧
    (Registrations.set_fds
      ⟨[⟨3, EventSet.empty, some 7, none⟩, ⟨9, EventSet.empty, none, none⟩],
        some 6, 0⟩).1.except = [] ∧
    (Registrations.set_fds
      ⟨[⟨3, EventSet.empty, some 7, none⟩, ⟨9, EventSet.empty, none, none⟩],
        some 6, 0⟩).2 = some 9 := by
  obtain ⟨hiff, hexc, hnone, hsome⟩ := claim_C5_set_fds
    ⟨[⟨3, EventSet.empty, some 7, none⟩, ⟨9, EventSet.empty, none, none⟩], some 6, 0⟩
  refine ⟨(hiff 6).1.mpr (Or.inl rfl),
    (hiff 3).1.mpr (Or.inr ⟨⟨3, EventSet.empty, some 7, none⟩, by simp, rfl, rfl⟩),
    fun hc => ?_, hexc, ?_⟩
  · obtain ⟨r, hr, -, hw⟩ := (hiff 3).2.mp hc
    rcases List.mem_cons.mp hr with h1 | h1
    · rw [h1] at hw
      simp [Registration.waker] at hw
    · rcases List.mem_cons.mp h1 with h2 | h2
      · rw [h2] at hw
        simp [Registration.waker] at hw
      · cases h2
  · cases hm : (Registrations.set_fds
        ⟨[⟨3, EventSet.empty, some 7, none⟩, ⟨9, EventSet.empty, none, none⟩],
          some 6, 0⟩).2 with
    | none =>
      obtain ⟨-, hc⟩ := hnone.mp hm
      cases hc
    | some m =>
      obtain ⟨hub, hch, hmem⟩ := hsome m hm
      have h9 : (9 : Int) ≤ m := hub ⟨9, EventSet.empty, none, none⟩ (by simp)
      have hm9 : m ≤ 9 := by
        rcases hmem with h1 | h1
        · simp at h1
          rcases h1 with h2 | h2 <;> omega
        · cases h1
          omega
      have : m = 9 := le_antisymm hm9 h9
      rw [this]

/-- The table invariant of the specification: descriptor values are pairwise
distinct among live registrations, every live descriptor lies in
[0, FD_SETSIZE), and no live descriptor equals the notification channel's
descriptor when the channel exists.  (The fourth clause of the spec — at
most one waker per (descriptor, event) slot — holds structurally: a slot is
an `Option Waker`.) -/
def TableInv (s : Registrations) : Prop :=
  (s.vec.map Registration.fd).Nodup ∧
  (∀ fdv ∈ s.vec.map Registration.fd, 0 ≤ fdv ∧ fdv < (FD_SETSIZE : Int)) ∧
  (∀ fdv ∈ s.vec.map Registration.fd, s.event_fd ≠ some fdv)

theorem tableInv_of_map_fd_eq (s s' : Registrations)
    (hvec : s'.vec.map Registration.fd = s.vec.map Registration.fd)
    (hefd : s'.event_fd = s.event_fd) (h : TableInv s) : TableInv s' := by
  obtain ⟨h1, h2, h3⟩ := h
  exact ⟨hvec ▸ h1, hvec ▸ h2, by rw [hvec, hefd]; exact h3⟩

theorem posOf_some (vec : List Registration) (fd : Int) (i : Nat)
    (h : posOf vec fd = some i) :
    ∃ pre reg post, vec = pre ++ reg :: post ∧ i = pre.length ∧ reg.fd = fd ∧
      ∀ r ∈ pre, r.fd ≠ fd := by
  induction vec generalizing i with
  | nil => cases h
  | cons x rest ih =>
    by_cases hx : x.fd = fd
    · simp only [posOf, beq_iff_eq, if_pos hx] at h
      cases h
      exact ⟨[], x, rest, rfl, rfl, hx, by simp⟩
    · simp only [posOf, beq_iff_eq, if_neg hx] at h
      cases hrec : posOf rest fd with
      | none => rw [hrec] at h; cases h
      | some j =>
        rw [hrec] at h
        simp only [Option.map_some', Option.some.injEq] at h
        obtain ⟨pre, reg, post, hvec, hj, hreg, hpre⟩ := ih j hrec
        refine ⟨x :: pre, reg, post, by rw [hvec]; rfl, ?_, hreg, ?_⟩
        · rw [← h, hj]
          rfl
        · intro r hr
          rcases List.mem_cons.mp hr with h1 | h1
          · rw [h1]; exact hx
          · exact hpre r h1

theorem swapRemove_tableInv (s : Registrations) (i : Nat)
    (pre post : List Registration) (reg : Registration)
    (hvec : s.vec = pre ++ reg :: post) (hi : i = pre.length) (h : TableInv s) :
    TableInv { s with vec := swapRemove s.vec i } := by
  obtain ⟨h1, h2, h3⟩ := h
  have hperm : (swapRemove s.vec i).Perm (pre ++ post) := by
    rw [hvec, hi]
    exact swapRemove_decomp pre post reg
  have hpermfd : ((swapRemove s.vec i).map Registration.fd).Perm
      ((pre ++ post).map Registration.fd) := hperm.map _
  have hsub : ∀ fdv ∈ (swapRemove s.vec i).map Registration.fd,
      fdv ∈ s.vec.map Registration.fd := by
    intro fdv hfdv
    rw [hpermfd.mem_iff] at hfdv
    rw [hvec]
    simp only [List.map_append, List.mem_append, List.map_cons, List.mem_cons] at hfdv ⊢
    tauto
  refine ⟨?_, fun fdv hfdv => h2 fdv (hsub fdv hfdv),
    fun fdv hfdv => h3 fdv (hsub fdv hfdv)⟩
  rw [hpermfd.nodup_iff]
  have hsl : ((pre ++ post).map Registration.fd).Sublist
      (s.vec.map Registration.fd) := by
    rw [hvec]
    simp only [List.map_append, List.map_cons]
    exact (List.sublist_cons_self _ _).append_left _
  exact hsl.nodup h1

/-- C8: the table invariant is preserved by every table operation: register,
deregister, arm-waker, fetch, update_events, create_notification (for a
fresh OS descriptor not currently registered) and destroy_notification. -/
theorem claim_C8_invariant (s : Registrations) (h : TableInv s) :
    (∀ N fd, TableInv (s.register N fd).1) ∧
    (∀ fd, TableInv (s.deregister fd).1) ∧
    (∀ fd e w, TableInv (s.set fd e w).1) ∧
    (∀ fd e, TableInv (s.fetch fd e).1) ∧
    (∀ pending fds, TableInv (s.update_events pending fds).1) ∧
    (∀ newFd, (∀ r ∈ s.vec, r.fd ≠ newFd) →
      TableInv (s.create_notification newFd).1) ∧
    TableInv s.destroy_notification.1 := by
  obtain ⟨h1, h2, h3⟩ := h
  refine ⟨?_, ?_, ?_, ?_, ?_, ?_, ?_⟩
  · intro N fd
    by_cases hbad : badRegisterArg s fd
    · rw [register_invalid N s fd hbad]
      exact ⟨h1, h2, h3⟩
    · rw [register_checks_pass N s fd hbad]
      by_cases hlen : N ≤ s.vec.length
      · rw [if_pos hlen]
        exact ⟨h1, h2, h3⟩
      · rw [if_neg hlen]
        unfold badRegisterArg at hbad
        push_neg at hbad
        obtain ⟨hneg, hsize, hefd, hmem⟩ := hbad
        have hnotin : fd ∉ s.vec.map Registration.fd := by
          rw [List.mem_map]
          rintro ⟨r, hr, hfd⟩
          exact hmem r hr hfd
        refine ⟨?_, ?_, ?_⟩
        · simp only [List.map_append, List.map_cons, List.map_nil]
          rw [List.nodup_append]
          refine ⟨h1, List.nodup_singleton fd, ?_⟩
          intro a ha hb
          rw [List.mem_singleton] at hb
          subst hb
          exact hnotin ha
        · intro fdv hfdv
          simp only [List.map_append, List.map_cons, List.map_nil,
            List.mem_append, List.mem_singleton] at hfdv
          rcases hfdv with h4 | h4
          · exact h2 fdv h4
          · subst h4
            exact ⟨hneg, hsize⟩
        · intro fdv hfdv
          simp only [List.map_append, List.map_cons, List.map_nil,
            List.mem_append, List.mem_singleton] at hfdv
          rcases hfdv with h4 | h4
          · exact h3 fdv h4
          · subst h4
            intro hc
            exact hefd hc
  · intro fd
    unfold Registrations.deregister
    cases hpos : posOf s.vec fd with
    | none => exact ⟨h1, h2, h3⟩
    | some i =>
      obtain ⟨pre, reg, post, hvec, hi, -, -⟩ := posOf_some s.vec fd i hpos
      exact swapRemove_tableInv s i pre post reg hvec hi ⟨h1, h2, h3⟩
  · intro fd e w
    unfold Registrations.set
    cases hset : setInVec s.vec fd e w with
    | none => exact ⟨h1, h2, h3⟩
    | some p =>
      exact tableInv_of_map_fd_eq s _ (setInVec_map_fd s.vec fd e w p.1 p.2
        (by rw [hset])) rfl ⟨h1, h2, h3⟩
  · intro fd e
    unfold Registrations.fetch
    cases hf : fetchInVec s.vec fd e with
    | none => exact ⟨h1, h2, h3⟩
    | some p =>
      exact tableInv_of_map_fd_eq s _ (fetchInVec_map_fd s.vec fd e p.1 p.2
        (by rw [hf])) rfl ⟨h1, h2, h3⟩
  · intro pending fds
    refine tableInv_of_map_fd_eq s _ ?_ rfl ⟨h1, h2, h3⟩
    show ((s.vec.map (regUpdate fds)).map Prod.fst).map Registration.fd = _
    rw [List.map_map]
    rw [List.map_map]
    exact List.map_congr_left (fun reg _ => regUpdate_fd fds reg)
  · intro newFd hfresh
    unfold Registrations.create_notification
    cases hefd : s.event_fd with
    | some efd =>
      rw [if_pos (by rfl)]
      exact ⟨h1, h2, h3⟩
    | none =>
      rw [if_neg (by simp)]
      show TableInv { s with event_fd := some newFd }
      refine ⟨h1, h2, ?_⟩
      intro fdv hfdv hc
      rw [List.mem_map] at hfdv
      obtain ⟨r, hr, hfd⟩ := hfdv
      exact hfresh r hr (by rw [hfd]; exact (Option.some.inj hc).symm)
  · unfold Registrations.destroy_notification
    cases hefd : s.event_fd with
    | some efd =>
      refine ⟨h1, h2, ?_⟩
      intro fdv hfdv
      simp
    | none => exact ⟨h1, h2, h3⟩

/-- C8 witness: the invariant holds after arming a waker and after creating
the notification channel with a fresh descriptor, starting from a concrete
valid table. -/
theorem claim_C8_invariant_witness :
    TableInv ((Registrations.set ⟨[⟨3, EventSet.empty, none, none⟩], none, 0⟩
      3 Event.Read 7).1) ∧
    TableInv ((Registrations.create_notification
      ⟨[⟨3, EventSet.empty, none, none⟩], none, 0⟩ 9).1) := by
  have h := claim_C8_invariant ⟨[⟨3, EventSet.empty, none, none⟩], none, 0⟩
    (by unfold TableInv; decide)
  exact ⟨h.2.2.1 3 Event.Read 7, h.2.2.2.2.2.1 9 (by decide)⟩

theorem list_int_length_le (L : List Int) (hnd : L.Nodup)
    (hsub : ∀ x ∈ L, 0 ≤ x ∧ x < (FD_SETSIZE : Int)) : L.length ≤ FD_SETSIZE := by
  have hcard : L.toFinset.card = L.length := List.toFinset_card_of_nodup hnd
  have hss : L.toFinset ⊆ Finset.Ico (0 : Int) (FD_SETSIZE : Int) := by
    intro x hx
    rw [List.mem_toFinset] at hx
    rw [Finset.mem_Ico]
    exact hsub x hx
  have hle := Finset.card_le_card hss
  have h2 : ((FD_SETSIZE : Int) - 0).toNat = FD_SETSIZE := by decide
  rw [hcard, Int.card_Ico, h2] at hle
  exact hle

/-- C10: with the default capacity N = FD_SETSIZE (the static REACTOR's
MAX_REGISTRATIONS), the OutOfMemory branch of register is unreachable from
any table satisfying the invariant: pairwise-distinct descriptors in
[0, FD_SETSIZE) can never fill the table while a fresh in-range descriptor
remains to be added. -/
theorem claim_C10_capacity (s : Registrations) (fd : Int) (h : TableInv s) :
    (s.register MAX_REGISTRATIONS fd).2 ≠ Except.error ErrorKind.OutOfMemory := by
  intro hc
  by_cases hbad : badRegisterArg s fd
  · rw [register_invalid MAX_REGISTRATIONS s fd hbad] at hc
    simp at hc
  · rw [register_checks_pass MAX_REGISTRATIONS s fd hbad] at hc
    by_cases hlen : MAX_REGISTRATIONS ≤ s.vec.length
    · obtain ⟨h1, h2, h3⟩ := h
      unfold badRegisterArg at hbad
      push_neg at hbad
      obtain ⟨hneg, hsize, hefd, hmem⟩ := hbad
      have hnotin : fd ∉ s.vec.map Registration.fd := by
        rw [List.mem_map]
        rintro ⟨r, hr, hfd⟩
        exact hmem r hr hfd
      have hnd : (fd :: s.vec.map Registration.fd).Nodup :=
        List.nodup_cons.mpr ⟨hnotin, h1⟩
      have hlen2 := list_int_length_le (fd :: s.vec.map Registration.fd) hnd ?_
      · simp only [List.length_cons, List.length_map] at hlen2
        unfold MAX_REGISTRATIONS at hlen
        omega
      · intro x hx
        rcases List.mem_cons.mp hx with h4 | h4
        · subst h4
          exact ⟨hneg, hsize⟩
        · exact h2 x h4
    · rw [if_neg hlen] at hc
      simp at hc

/-- C10 witness: on the empty table (which satisfies the invariant) register
at the static capacity cannot return OutOfMemory. -/
theorem claim_C10_capacity_witness :
    (Registrations.register MAX_REGISTRATIONS ⟨[], none, 0⟩ 5).2 ≠
      Except.error ErrorKind.OutOfMemory :=
  claim_C10_capacity ⟨[], none, 0⟩ 5 (by unfold TableInv; decide)

/-- Reachability invariant used by C2: whenever an event's armed bit is set
in a registration, that event's waker slot is empty.  It holds of the empty
table and is preserved by every operation that touches the vector, because
`update_events` is the only operation that sets an armed bit and it always
empties the slot in the same step. -/
def armedSlotsEmpty (s : Registrations) : Prop :=
  ∀ r ∈ s.vec, ∀ e, r.events.contains e = true → r.waker e = none

theorem armedSlotsEmpty_new : armedSlotsEmpty Registrations.new := by
  intro r hr
  cases hr

theorem setInVec_armedSlotsEmpty (vec : List Registration) (fd : Int) (e : Event)
    (w : Waker) (vec' : List Registration) (wakes : List Waker)
    (h : setInVec vec fd e w = some (vec', wakes))
    (hinv : ∀ r ∈ vec, ∀ e2, r.events.contains e2 = true → r.waker e2 = none) :
    ∀ r ∈ vec', ∀ e2, r.events.contains e2 = true → r.waker e2 = none := by
  induction vec generalizing vec' wakes with
  | nil => cases h
  | cons reg rest ih =>
    simp only [setInVec, beq_iff_eq] at h
    by_cases hfd : reg.fd = fd
    · rw [if_pos hfd] at h
      simp only [Option.some.injEq, Prod.mk.injEq] at h
      obtain ⟨hv, -⟩ := h
      subst hv
      intro r hr e2 he2
      rcases List.mem_cons.mp hr with h1 | h1
      · subst h1
        by_cases he : e2 = e
        · subst he
          rw [armReg, Registration.events_setWaker, EventSet.contains_remove_self] at he2
          cases he2
        · rw [armReg, Registration.events_setWaker,
            EventSet.contains_remove_other _ _ _ he] at he2
          rw [armReg, Registration.waker_setWaker_other _ _ _ _ he]
          exact hinv reg (List.mem_cons_self _ _) e2 he2
      · exact hinv r (List.mem_cons_of_mem _ h1) e2 he2
    · rw [if_neg hfd] at h
      cases hrec : setInVec rest fd e w with
      | none => rw [hrec] at h; cases h
      | some p =>
        rw [hrec] at h
        obtain ⟨rest', ws⟩ := p
        simp only [Option.some.injEq, Prod.mk.injEq] at h
        obtain ⟨hv, -⟩ := h
        subst hv
        intro r hr e2 he2
        rcases List.mem_cons.mp hr with h1 | h1
        · subst h1
          exact hinv r (List.mem_cons_self _ _) e2 he2
        · exact ih rest' ws hrec
            (fun r2 hr2 => hinv r2 (List.mem_cons_of_mem _ hr2)) r h1 e2 he2

theorem fetchInVec_armedSlotsEmpty (vec : List Registration) (fd : Int) (e : Event)
    (vec' : List Registration) (b : Bool)
    (h : fetchInVec vec fd e = some (vec', b))
    (hinv : ∀ r ∈ vec, ∀ e2, r.events.contains e2 = true → r.waker e2 = none) :
    ∀ r ∈ vec', ∀ e2, r.events.contains e2 = true → r.waker e2 = none := by
  induction vec generalizing vec' b with
  | nil => cases h
  | cons reg rest ih =>
    simp only [fetchInVec, beq_iff_eq] at h
    by_cases hfd : reg.fd = fd
    · rw [if_pos hfd] at h
      simp only [Option.some.injEq, Prod.mk.injEq] at h
      obtain ⟨hv, -⟩ := h
      subst hv
      intro r hr e2 he2
      rcases List.mem_cons.mp hr with h1 | h1
      · subst h1
        by_cases he : e2 = e
        · subst he
          rw [show ({ reg with events := reg.events.remove e2 } :
              Registration).events = reg.events.remove e2 from rfl,
            EventSet.contains_remove_self] at he2
          cases he2
        · rw [show ({ reg with events := reg.events.remove e } :
              Registration).events = reg.events.remove e from rfl,
            EventSet.contains_remove_other _ _ _ he] at he2
          rw [Registration.waker_events_update]
          exact hinv reg (List.mem_cons_self _ _) e2 he2
      · exact hinv r (List.mem_cons_of_mem _ h1) e2 he2
    · rw [if_neg hfd] at h
      cases hrec : fetchInVec rest fd e with
      | none => rw [hrec] at h; cases h
      | some p =>
        rw [hrec] at h
        obtain ⟨rest', b'⟩ := p
        simp only [Option.some.injEq, Prod.mk.injEq] at h
        obtain ⟨hv, -⟩ := h
        subst hv
        intro r hr e2 he2
        rcases List.mem_cons.mp hr with h1 | h1
        · subst h1
          exact hinv r (List.mem_cons_self _ _) e2 he2
        · exact ih rest' b' hrec
            (fun r2 hr2 => hinv r2 (List.mem_cons_of_mem _ hr2)) r h1 e2 he2

theorem armedSlotsEmpty_preserved (s : Registrations) (h : armedSlotsEmpty s) :
    (∀ N fd, armedSlotsEmpty (s.register N fd).1) ∧
    (∀ fd, armedSlotsEmpty (s.deregister fd).1) ∧
    (∀ fd e w, armedSlotsEmpty (s.set fd e w).1) ∧
    (∀ fd e, armedSlotsEmpty (s.fetch fd e).1) ∧
    (∀ pending fds, armedSlotsEmpty (s.update_events pending fds).1) ∧
    (∀ newFd, armedSlotsEmpty (s.create_notification newFd).1) ∧
    armedSlotsEmpty s.destroy_notification.1 := by
  refine ⟨?_, ?_, ?_, ?_, ?_, ?_, ?_⟩
  · intro N fd
    by_cases hbad : badRegisterArg s fd
    · rw [register_invalid N s fd hbad]
      exact h
    · rw [register_checks_pass N s fd hbad]
      by_cases hlen : N ≤ s.vec.length
      · rw [if_pos hlen]
        exact h
      · rw [if_neg hlen]
        intro r hr e2 he2
        rcases List.mem_append.mp hr with h1 | h1
        · exact h r h1 e2 he2
        · rcases List.mem_singleton.mp h1 with rfl
          cases e2 <;> cases he2
  · intro fd
    unfold Registrations.deregister
    cases hpos : posOf s.vec fd with
    | none => exact h
    | some i =>
      obtain ⟨pre, reg, post, hvec, hi, -, -⟩ := posOf_some s.vec fd i hpos
      intro r hr e2 he2
      have hperm : (swapRemove s.vec i).Perm (pre ++ post) := by
        rw [hvec, hi]
        exact swapRemove_decomp pre post reg
      have hr2 : r ∈ pre ++ post := hperm.mem_iff.mp hr
      have hr3 : r ∈ s.vec := by
        rw [hvec]
        rcases List.mem_append.mp hr2 with h1 | h1
        · exact List.mem_append.mpr (Or.inl h1)
        · exact List.mem_append.mpr (Or.inr (List.mem_cons_of_mem _ h1))
      exact h r hr3 e2 he2
  · intro fd e w
    unfold Registrations.set
    cases hset : setInVec s.vec fd e w with
    | none => exact h
    | some p =>
      exact setInVec_armedSlotsEmpty s.vec fd e w p.1 p.2 (by rw [hset]) h
  · intro fd e
    unfold Registrations.fetch
    cases hf : fetchInVec s.vec fd e with
    | none => exact h
    | some p =>
      exact fetchInVec_armedSlotsEmpty s.vec fd e p.1 p.2 (by rw [hf]) h
  · intro pending fds
    intro r hr e2 he2
    have hr2 : r ∈ (s.vec.map (regUpdate fds)).map Prod.fst := hr
    rw [List.map_map, List.mem_map] at hr2
    obtain ⟨reg, hreg, hcomp⟩ := hr2
    have hc : (regUpdate fds reg).1 = r := hcomp
    cases hrdy : fds.isSet reg.fd e2 with
    | true =>
      rw [← hc]
      exact (regUpdate_ready fds reg e2 hrdy).2
    | false =>
      obtain ⟨hcont, hwak⟩ := regUpdate_not_ready fds reg e2 hrdy
      rw [← hc] at he2 ⊢
      rw [hwak]
      rw [hcont] at he2
      exact h reg hreg e2 he2
  · intro newFd
    unfold Registrations.create_notification
    cases s.event_fd.isSome with
    | true => exact h
    | false => exact h
  · unfold Registrations.destroy_notification
    cases s.event_fd with
    | some efd => exact h
    | none => exact h

end AsyncIOMini
